import Mathlib

/-
Verification development for lizard-datasource.

The augmenter (src/lizard_datasource/augmented_datasource.py) is embedded
shallowly below: `visible_criteria`, `locations`, `timeseries` and
`fill_mapping_with_closest_locations` are translated from the source.
The value objects they operate on (`Criterion`, `Opt`, `OptionList`,
`ChoicesMade`) live in criteria.py / datasource.py, which are not part of
the source tree under verification; those are modelled from the spec
(each such definition says so in its doc comment).
-/

namespace Lizard

/-- Modelled from the spec: `Criterion` (criteria.py is missing from src/):
an immutable value object holding a stable string identifier and a
human-readable description. -/
structure Criterion where
  identifier : String
  description : String
deriving DecidableEq

/-- Modelled from the spec: `Option` (criteria.py is missing from src/):
an immutable value object holding an identifier and a description.
Named `Opt` because `Option` is taken in Lean. -/
structure Opt where
  identifier : String
  description : String
deriving DecidableEq

/-- Modelled from the spec: `OptionList` (criteria.py is missing from src/):
an ordered sequence of options with no duplicate identifiers. Iteration
(`iter_options`) is in list order and `len` is the list length. -/
structure OptionList where
  options : List Opt
deriving DecidableEq

/-- Helper for `OptionList.minus`: remove the first option whose identifier
matches the named option's identifier. -/
def minusList (o : Opt) : List Opt → List Opt
  | [] => []
  | p :: rest => if p.identifier = o.identifier then rest else p :: minusList o rest

/-- Modelled from the spec: `OptionList.minus` (criteria.py is missing from
src/) returns a new OptionList with the named option removed, never mutating
the original. The spec's loud-failure case (removing an absent option) is
unreachable at the only call site in `visible_criteria`, where the removed
option is always drawn from the list itself. -/
def OptionList.minus (ol : OptionList) (o : Opt) : OptionList :=
  ⟨minusList o ol.options⟩

/-- Modelled from the spec: `ChoicesMade` (datasource.py is missing from
src/): an immutable mapping from criterion identifier to chosen option
identifier, kept as an association list in insertion order. -/
structure ChoicesMade where
  entries : List (String × String)
deriving DecidableEq

/-- Modelled from the spec: `ChoicesMade.add` returns a new instance with
the existing mapping plus the new pair (an existing binding for the key is
replaced); the receiver is never mutated. -/
def ChoicesMade.add (cm : ChoicesMade) (key value : String) : ChoicesMade :=
  ⟨cm.entries.filter (fun p => p.1 != key) ++ [(key, value)]⟩

/-- Modelled from the spec: `add_criterion_option(criterion, option)` is
sugar for `add(criterion.identifier, option.identifier)`. -/
def ChoicesMade.add_criterion_option (cm : ChoicesMade) (c : Criterion) (o : Opt) :
    ChoicesMade :=
  cm.add c.identifier o.identifier

/-- Strict lexicographic comparison of character lists by code point, the
order `json.dumps(..., sort_keys=True)` sorts keys in. -/
def listCharLt : List Char → List Char → Bool
  | _, [] => false
  | [], _ :: _ => true
  | a :: as, b :: bs =>
    if a.toNat < b.toNat then true
    else if b.toNat < a.toNat then false
    else listCharLt as bs

/-- Strict lexicographic comparison of strings by code point. -/
def strLt (a b : String) : Bool := listCharLt a.data b.data

theorem char_toNat_inj {a b : Char} (h : a.toNat = b.toNat) : a = b := by
  apply Char.ext
  apply UInt32.eq_of_val_eq
  exact Fin.ext h

theorem listCharLt_irrefl : ∀ as : List Char, listCharLt as as = false := by
  intro as
  induction as with
  | nil => rfl
  | cons a as ih => simp [listCharLt, ih]

theorem listCharLt_trichotomy :
    ∀ as bs : List Char, listCharLt as bs = true ∨ as = bs ∨ listCharLt bs as = true := by
  intro as
  induction as with
  | nil =>
    intro bs
    cases bs with
    | nil => exact Or.inr (Or.inl rfl)
    | cons b bs => exact Or.inl rfl
  | cons a as ih =>
    intro bs
    cases bs with
    | nil => exact Or.inr (Or.inr rfl)
    | cons b bs =>
      rcases Nat.lt_trichotomy a.toNat b.toNat with h | h | h
      · exact Or.inl (by simp [listCharLt, h])
      · have hab : a = b := char_toNat_inj h
        subst hab
        rcases ih bs with h2 | h2 | h2
        · exact Or.inl (by simp [listCharLt, h2])
        · exact Or.inr (Or.inl (by rw [h2]))
        · exact Or.inr (Or.inr (by simp [listCharLt, h2]))
      · exact Or.inr (Or.inr (by simp [listCharLt, h]))

theorem listCharLt_trans :
    ∀ as bs cs : List Char, listCharLt as bs = true → listCharLt bs cs = true →
      listCharLt as cs = true := by
  intro as
  induction as with
  | nil =>
    intro bs cs h1 h2
    cases bs with
    | nil => exact h2
    | cons b bs =>
      cases cs with
      | nil => simp [listCharLt] at h2
      | cons c cs => rfl
  | cons a as ih =>
    intro bs cs h1 h2
    cases bs with
    | nil => simp [listCharLt] at h1
    | cons b bs =>
      cases cs with
      | nil => simp [listCharLt] at h2
      | cons c cs =>
        simp only [listCharLt] at h1 h2 ⊢
        by_cases hab : a.toNat < b.toNat <;> by_cases hba : b.toNat < a.toNat <;>
          by_cases hbc : b.toNat < c.toNat <;> by_cases hcb : c.toNat < b.toNat <;>
            first
              | (exfalso; omega)
              | (rw [if_pos (show a.toNat < c.toNat by omega)])
              | (rw [if_neg hab, if_pos hba] at h1; exact absurd h1 Bool.false_ne_true)
              | (rw [if_neg hbc, if_pos hcb] at h2; exact absurd h2 Bool.false_ne_true)
              | (rw [if_neg hab, if_neg hba] at h1
                 rw [if_neg hbc, if_neg hcb] at h2
                 rw [if_neg (show ¬ a.toNat < c.toNat by omega),
                   if_neg (show ¬ c.toNat < a.toNat by omega)]
                 exact ih bs cs h1 h2)

theorem listCharLt_asymm {as bs : List Char}
    (h : listCharLt as bs = true) : listCharLt bs as = false := by
  by_contra h2
  have h2 : listCharLt bs as = true := by
    cases hv : listCharLt bs as
    · exact absurd hv h2
    · rfl
  have := listCharLt_trans as bs as h h2
  rw [listCharLt_irrefl] at this
  exact Bool.false_ne_true this

theorem strLt_string_eq {a b : String}
    (h1 : strLt a b = false) (h2 : strLt b a = false) : a = b := by
  rcases listCharLt_trichotomy a.data b.data with h | h | h
  · rw [strLt] at h1; rw [h1] at h; exact absurd h Bool.false_ne_true
  · exact String.ext h
  · rw [strLt] at h2; rw [h2] at h; exact absurd h Bool.false_ne_true

theorem listCharLt_notLt_trans {a b c : List Char}
    (h1 : listCharLt b a = false) (h2 : listCharLt c b = false) :
    listCharLt c a = false := by
  cases hv : listCharLt c a with
  | false => rfl
  | true =>
    exfalso
    rcases listCharLt_trichotomy a b with hab | hab | hab
    · rcases listCharLt_trichotomy b c with hbc | hbc | hbc
      · have hac := listCharLt_trans a b c hab hbc
        have hcc := listCharLt_trans c a c hv hac
        rw [listCharLt_irrefl] at hcc
        exact Bool.false_ne_true hcc
      · rw [hbc] at hab
        have hcc := listCharLt_trans c a c hv hab
        rw [listCharLt_irrefl] at hcc
        exact Bool.false_ne_true hcc
      · rw [h2] at hbc; exact Bool.false_ne_true hbc
    · rw [← hab] at h2
      rw [h2] at hv
      exact Bool.false_ne_true hv
    · rw [h1] at hab; exact Bool.false_ne_true hab

/-- Lexicographic order on (key, value) pairs used to render a `ChoicesMade`
canonically: primarily by key, ties broken by value (with distinct keys the
tiebreak never fires, so this is exactly key-sorted order). -/
def pairRel (p q : String × String) : Prop :=
  (strLt p.1 q.1 || (p.1 == q.1 && !(strLt q.2 p.2))) = true

instance : DecidableRel pairRel := fun p q => by
  unfold pairRel; infer_instance

theorem pairRel_iff (p q : String × String) :
    pairRel p q ↔
      strLt p.1 q.1 = true ∨ (p.1 = q.1 ∧ strLt q.2 p.2 = false) := by
  unfold pairRel
  constructor
  · intro h
    rcases (by simpa using h :
        strLt p.1 q.1 = true ∨ (p.1 = q.1 ∧ ¬ strLt q.2 p.2 = true)) with h | ⟨h1, h2⟩
    · exact Or.inl h
    · exact Or.inr ⟨h1, Bool.eq_false_iff.mpr h2⟩
  · intro h
    rcases h with h | ⟨h1, h2⟩
    · simp [h]
    · simp [h1, h2]

theorem strLt_irrefl (a : String) : strLt a a = false := by
  rw [strLt]; exact listCharLt_irrefl _

instance : IsTotal (String × String) pairRel where
  total p q := by
    rw [pairRel_iff, pairRel_iff]
    rcases listCharLt_trichotomy p.1.data q.1.data with h | h | h
    · exact Or.inl (Or.inl h)
    · have hk : p.1 = q.1 := String.ext h
      rcases listCharLt_trichotomy p.2.data q.2.data with h2 | h2 | h2
      · exact Or.inl (Or.inr ⟨hk, listCharLt_asymm h2⟩)
      · have hv : p.2 = q.2 := String.ext h2
        exact Or.inl (Or.inr ⟨hk, by rw [hv]; exact strLt_irrefl _⟩)
      · exact Or.inr (Or.inr ⟨hk.symm, listCharLt_asymm h2⟩)
    · exact Or.inr (Or.inl h)

instance : IsTrans (String × String) pairRel where
  trans p q s h1 h2 := by
    rw [pairRel_iff] at h1 h2 ⊢
    rcases h1 with h1 | ⟨h1, h1v⟩ <;> rcases h2 with h2 | ⟨h2, h2v⟩
    · exact Or.inl (listCharLt_trans _ _ _ h1 h2)
    · exact Or.inl (h2 ▸ h1)
    · exact Or.inl (h1 ▸ h2)
    · exact Or.inr ⟨h1.trans h2, listCharLt_notLt_trans h1v h2v⟩

instance : IsAntisymm (String × String) pairRel where
  antisymm p q h1 h2 := by
    rw [pairRel_iff] at h1 h2
    rcases h1 with h1 | ⟨h1, h1v⟩ <;> rcases h2 with h2 | ⟨h2, h2v⟩
    · have h2x : listCharLt q.1.data p.1.data = true := h2
      rw [listCharLt_asymm h1] at h2x; exact absurd h2x Bool.false_ne_true
    · have h1x : strLt p.1 p.1 = true := by rw [h2] at h1; exact h1
      rw [strLt_irrefl] at h1x; exact absurd h1x Bool.false_ne_true
    · have h2x : strLt q.1 q.1 = true := by rw [h1] at h2; exact h2
      rw [strLt_irrefl] at h2x; exact absurd h2x Bool.false_ne_true
    · exact Prod.ext h1 (strLt_string_eq h2v h1v)

/-- Render one key/value pair as a JSON object member. -/
def renderPair (p : String × String) : String :=
  "\"" ++ p.1 ++ "\": \"" ++ p.2 ++ "\""

/-- Modelled from the spec: `ChoicesMade.json` (datasource.py is missing
from src/) renders the mapping as a JSON object whose keys are emitted in
sorted (lexicographic) order, e.g. `\x7b"a": "b", "test": "value"\x7d`;
confirmed by the concrete expectation in
src/lizard_datasource/tests/test_datasource.py (test_json_sorts_keys). -/
def ChoicesMade.json (cm : ChoicesMade) : String :=
  "\x7b" ++
    String.intercalate ", " ((List.insertionSort pairRel cm.entries).map renderPair) ++
    "\x7d"

/-- One work-list entry of the visible-criteria filter: the dicts
`\x7b'criterion': ..., 'options': ...\x7d` of augmented_datasource.py. -/
structure Chooseable where
  criterion : Criterion
  options : OptionList
deriving DecidableEq

/-- The inner `for option in options.iter_options()` loop of
`AugmentedDataSource.visible_criteria`: the first option (in list order)
whose hypothetical one-step extension of the current selection serializes
to a forbidden combination, if any. -/
def forbiddenOption (forbidden : List String) (my : ChoicesMade) (c : Criterion)
    (opts : List Opt) : Option Opt :=
  opts.find? (fun o => forbidden.contains (my.add_criterion_option c o).json)

/-- Outcome of one pass of the filter over one chooseable pair. -/
inductive PassResult where
  | accept : PassResult
  | requeue : Chooseable → PassResult
  | drop : PassResult
deriving DecidableEq

/-- One chooseable pair of one pass of `visible_criteria`: the for/else body.
If no option's extension is forbidden the pair is accepted as-is; otherwise,
if more than one option remains, the pair is re-queued with the offending
option removed; with a single option the pair is dropped. -/
def processChooseable (forbidden : List String) (my : ChoicesMade) (c : Chooseable) :
    PassResult :=
  match forbiddenOption forbidden my c.criterion c.options.options with
  | none => PassResult.accept
  | some o =>
    if 1 < c.options.options.length then
      PassResult.requeue ⟨c.criterion, c.options.minus o⟩
    else
      PassResult.drop

/-- One full pass of the while-loop body over the current work-list, in
order: first component is the pass's additions to `clean_criteria`, second
is `retry_criteria`. -/
def runPass (forbidden : List String) (my : ChoicesMade) :
    List Chooseable → List Chooseable × List Chooseable
  | [] => ([], [])
  | c :: rest =>
    let r := runPass forbidden my rest
    match processChooseable forbidden my c with
    | PassResult.accept => (c :: r.1, r.2)
    | PassResult.requeue c2 => (r.1, c2 :: r.2)
    | PassResult.drop => r

/-- Termination measure for the work-list loop: total option count plus one
per pending pair. -/
def weight (cs : List Chooseable) : Nat :=
  cs.foldr (fun c n => c.options.options.length + 1 + n) 0

theorem minusList_length (o : Opt) :
    ∀ opts : List Opt, (∃ p ∈ opts, p.identifier = o.identifier) →
      (minusList o opts).length + 1 = opts.length := by
  intro opts
  induction opts with
  | nil => intro h; simp at h
  | cons p rest ih =>
    intro h
    by_cases hp : p.identifier = o.identifier
    · simp [minusList, hp]
    · obtain ⟨q, hq, hq2⟩ := h
      rcases List.mem_cons.mp hq with rfl | hq
      · exact absurd hq2 hp
      · simp [minusList, hp, ih ⟨q, hq, hq2⟩]

theorem requeue_shape (forbidden : List String) (my : ChoicesMade)
    (c : Chooseable) (c2 : Chooseable)
    (h : processChooseable forbidden my c = PassResult.requeue c2) :
    c2.criterion = c.criterion ∧
      c2.options.options.length + 1 = c.options.options.length := by
  unfold processChooseable at h
  cases hfo : forbiddenOption forbidden my c.criterion c.options.options with
  | none => rw [hfo] at h; exact absurd h (by simp)
  | some o =>
    rw [hfo] at h
    by_cases hl : 1 < c.options.options.length
    · simp only [if_pos hl, PassResult.requeue.injEq] at h
      subst h
      refine ⟨rfl, ?_⟩
      have hmem : o ∈ c.options.options := List.mem_of_find?_eq_some hfo
      exact minusList_length o c.options.options ⟨o, hmem, rfl⟩
    · simp [hl] at h

theorem weight_runPass_snd_le (forbidden : List String) (my : ChoicesMade) :
    ∀ cs : List Chooseable, weight (runPass forbidden my cs).2 ≤ weight cs := by
  intro cs
  induction cs with
  | nil => simp [runPass, weight]
  | cons c rest ih =>
    show weight (match processChooseable forbidden my c with
      | PassResult.accept => (c :: (runPass forbidden my rest).1, (runPass forbidden my rest).2)
      | PassResult.requeue c2 => ((runPass forbidden my rest).1, c2 :: (runPass forbidden my rest).2)
      | PassResult.drop => runPass forbidden my rest).2 ≤ weight (c :: rest)
    have hw : weight (c :: rest) = c.options.options.length + 1 + weight rest := rfl
    cases hp : processChooseable forbidden my c with
    | accept =>
      simp only [hw]
      exact le_trans ih (by omega)
    | requeue c2 =>
      obtain ⟨-, hlen⟩ := requeue_shape forbidden my c c2 hp
      have : weight (c2 :: (runPass forbidden my rest).2) =
          c2.options.options.length + 1 + weight (runPass forbidden my rest).2 := rfl
      simp only [this, hw]
      omega
    | drop =>
      simp only [hw]
      exact le_trans ih (by omega)

theorem weight_runPass_snd_lt (forbidden : List String) (my : ChoicesMade) :
    ∀ cs : List Chooseable, cs ≠ [] → weight (runPass forbidden my cs).2 < weight cs := by
  intro cs hne
  cases cs with
  | nil => exact absurd rfl hne
  | cons c rest =>
    have ih := weight_runPass_snd_le forbidden my rest
    show weight (match processChooseable forbidden my c with
      | PassResult.accept => (c :: (runPass forbidden my rest).1, (runPass forbidden my rest).2)
      | PassResult.requeue c2 => ((runPass forbidden my rest).1, c2 :: (runPass forbidden my rest).2)
      | PassResult.drop => runPass forbidden my rest).2 < weight (c :: rest)
    have hw : weight (c :: rest) = c.options.options.length + 1 + weight rest := rfl
    cases hp : processChooseable forbidden my c with
    | accept => simp only [hw]; omega
    | requeue c2 =>
      obtain ⟨-, hlen⟩ := requeue_shape forbidden my c c2 hp
      have : weight (c2 :: (runPass forbidden my rest).2) =
          c2.options.options.length + 1 + weight (runPass forbidden my rest).2 := rfl
      simp only [this, hw]
      omega
    | drop => simp only [hw]; omega

/-- The embedding of `AugmentedDataSource.visible_criteria`
(src/lizard_datasource/augmented_datasource.py, lines 83-134): the while
loop over the work-list, accumulating each pass's clean criteria and
restarting on the retry criteria. `forbidden` is `forbidden_choices_json`
and `my` is `self._choices_made`. -/
def visible_criteria (forbidden : List String) (my : ChoicesMade)
    (cs : List Chooseable) : List Chooseable :=
  if h : cs = [] then []
  else
    (runPass forbidden my cs).1 ++ visible_criteria forbidden my (runPass forbidden my cs).2
termination_by weight cs
decreasing_by exact weight_runPass_snd_lt forbidden my cs h

theorem visible_criteria_nil (forbidden : List String) (my : ChoicesMade) :
    visible_criteria forbidden my [] = [] := by
  rw [visible_criteria]
  simp

theorem visible_criteria_ne_nil (forbidden : List String) (my : ChoicesMade)
    (cs : List Chooseable) (h : cs ≠ []) :
    visible_criteria forbidden my cs =
      (runPass forbidden my cs).1 ++
        visible_criteria forbidden my (runPass forbidden my cs).2 := by
  rw [visible_criteria]
  simp [h]

/-- Fuel-bounded twin of `visible_criteria`, structurally recursive so the
kernel can evaluate it on concrete inputs; `visible_criteria_eq_fuel` shows
it agrees with the loop whenever the fuel covers the termination measure. -/
def visibleFuel (forbidden : List String) (my : ChoicesMade) :
    Nat → List Chooseable → List Chooseable
  | _, [] => []
  | 0, _ :: _ => []
  | fuel + 1, c :: rest =>
    (runPass forbidden my (c :: rest)).1 ++
      visibleFuel forbidden my fuel (runPass forbidden my (c :: rest)).2

theorem weight_pos (cs : List Chooseable) (h : cs ≠ []) : 1 ≤ weight cs := by
  cases cs with
  | nil => exact absurd rfl h
  | cons c rest =>
    show 1 ≤ c.options.options.length + 1 + weight rest
    omega

theorem visible_criteria_eq_fuel (forbidden : List String) (my : ChoicesMade) :
    ∀ (fuel : Nat) (cs : List Chooseable), weight cs ≤ fuel →
      visible_criteria forbidden my cs = visibleFuel forbidden my fuel cs := by
  intro fuel
  induction fuel with
  | zero =>
    intro cs hw
    cases cs with
    | nil => rw [visible_criteria_nil]; rfl
    | cons c rest =>
      have := weight_pos (c :: rest) (by simp)
      omega
  | succ fuel ih =>
    intro cs hw
    cases cs with
    | nil => rw [visible_criteria_nil]; rfl
    | cons c rest =>
      rw [visible_criteria_ne_nil forbidden my (c :: rest) (by simp)]
      show _ = (runPass forbidden my (c :: rest)).1 ++
        visibleFuel forbidden my fuel (runPass forbidden my (c :: rest)).2
      have hlt := weight_runPass_snd_lt forbidden my (c :: rest) (by simp)
      rw [ih (runPass forbidden my (c :: rest)).2 (by omega)]

/-! Concrete fixtures used by concrete theorems and witnesses. -/

/-- A fixture criterion. -/
def exCriterion : Criterion := ⟨"crit", "the criterion"⟩

/-- Fixture option a. -/
def exA : Opt := ⟨"a", "option a"⟩

/-- Fixture option b. -/
def exB : Opt := ⟨"b", "option b"⟩

/-- Fixture option c. -/
def exC : Opt := ⟨"c", "option c"⟩

/-- Fixture current selection: nothing chosen yet. -/
def exMy : ChoicesMade := ⟨[]⟩

/-! Structural characterizations of one pass. -/

theorem processChooseable_requeue_struct (forbidden : List String) (my : ChoicesMade)
    (c : Chooseable) (c2 : Chooseable)
    (h : processChooseable forbidden my c = PassResult.requeue c2) :
    ∃ o, forbiddenOption forbidden my c.criterion c.options.options = some o ∧
      c2 = ⟨c.criterion, c.options.minus o⟩ ∧ 1 < c.options.options.length := by
  unfold processChooseable at h
  cases hfo : forbiddenOption forbidden my c.criterion c.options.options with
  | none => rw [hfo] at h; exact absurd h (by simp)
  | some o =>
    rw [hfo] at h
    by_cases hl : 1 < c.options.options.length
    · simp only [if_pos hl, PassResult.requeue.injEq] at h
      exact ⟨o, rfl, h.symm, hl⟩
    · simp [hl] at h

theorem processChooseable_drop_struct (forbidden : List String) (my : ChoicesMade)
    (c : Chooseable)
    (h : processChooseable forbidden my c = PassResult.drop) :
    ∃ o, forbiddenOption forbidden my c.criterion c.options.options = some o ∧
      ¬ 1 < c.options.options.length := by
  unfold processChooseable at h
  cases hfo : forbiddenOption forbidden my c.criterion c.options.options with
  | none => rw [hfo] at h; exact absurd h (by simp)
  | some o =>
    rw [hfo] at h
    by_cases hl : 1 < c.options.options.length
    · simp [hl] at h
    · exact ⟨o, rfl, hl⟩

theorem mem_runPass_fst (forbidden : List String) (my : ChoicesMade)
    (c : Chooseable) :
    ∀ cs : List Chooseable, c ∈ cs →
      processChooseable forbidden my c = PassResult.accept →
      c ∈ (runPass forbidden my cs).1 := by
  intro cs
  induction cs with
  | nil => intro h; simp at h
  | cons d rest ih =>
    intro hmem hacc
    rcases List.mem_cons.mp hmem with rfl | hmem
    · show c ∈ (match processChooseable forbidden my c with
        | PassResult.accept => (c :: (runPass forbidden my rest).1, (runPass forbidden my rest).2)
        | PassResult.requeue c2 => ((runPass forbidden my rest).1, c2 :: (runPass forbidden my rest).2)
        | PassResult.drop => runPass forbidden my rest).1
      rw [hacc]
      exact List.mem_cons_self _ _
    · show c ∈ (match processChooseable forbidden my d with
        | PassResult.accept => (d :: (runPass forbidden my rest).1, (runPass forbidden my rest).2)
        | PassResult.requeue c2 => ((runPass forbidden my rest).1, c2 :: (runPass forbidden my rest).2)
        | PassResult.drop => runPass forbidden my rest).1
      cases processChooseable forbidden my d with
      | accept => exact List.mem_cons_of_mem _ (ih hmem hacc)
      | requeue c2 => exact ih hmem hacc
      | drop => exact ih hmem hacc

theorem mem_runPass_snd (forbidden : List String) (my : ChoicesMade)
    (c c2 : Chooseable) :
    ∀ cs : List Chooseable, c ∈ cs →
      processChooseable forbidden my c = PassResult.requeue c2 →
      c2 ∈ (runPass forbidden my cs).2 := by
  intro cs
  induction cs with
  | nil => intro h; simp at h
  | cons d rest ih =>
    intro hmem hrq
    rcases List.mem_cons.mp hmem with rfl | hmem
    · show c2 ∈ (match processChooseable forbidden my c with
        | PassResult.accept => (c :: (runPass forbidden my rest).1, (runPass forbidden my rest).2)
        | PassResult.requeue c3 => ((runPass forbidden my rest).1, c3 :: (runPass forbidden my rest).2)
        | PassResult.drop => runPass forbidden my rest).2
      rw [hrq]
      exact List.mem_cons_self _ _
    · show c2 ∈ (match processChooseable forbidden my d with
        | PassResult.accept => (d :: (runPass forbidden my rest).1, (runPass forbidden my rest).2)
        | PassResult.requeue c3 => ((runPass forbidden my rest).1, c3 :: (runPass forbidden my rest).2)
        | PassResult.drop => runPass forbidden my rest).2
      cases processChooseable forbidden my d with
      | accept => exact ih hmem hrq
      | requeue c3 => exact List.mem_cons_of_mem _ (ih hmem hrq)
      | drop => exact ih hmem hrq

/-! Lemmas about option removal. -/

theorem mem_minusList (o : Opt) :
    ∀ opts : List Opt, ∀ q ∈ opts, q.identifier ≠ o.identifier →
      q ∈ minusList o opts := by
  intro opts
  induction opts with
  | nil => intro q hq; simp at hq
  | cons p rest ih =>
    intro q hq hne
    rcases List.mem_cons.mp hq with rfl | hq
    · rw [minusList, if_neg hne]
      exact List.mem_cons_self _ _
    · by_cases hp : p.identifier = o.identifier
      · rw [minusList, if_pos hp]; exact hq
      · rw [minusList, if_neg hp]; exact List.mem_cons_of_mem _ (ih q hq hne)

theorem minusList_subset (o : Opt) :
    ∀ opts : List Opt, ∀ q ∈ minusList o opts, q ∈ opts := by
  intro opts
  induction opts with
  | nil => intro q hq; simp [minusList] at hq
  | cons p rest ih =>
    intro q hq
    by_cases hp : p.identifier = o.identifier
    · rw [minusList, if_pos hp] at hq
      exact List.mem_cons_of_mem _ hq
    · rw [minusList, if_neg hp] at hq
      rcases List.mem_cons.mp hq with rfl | hq
      · exact List.mem_cons_self _ _
      · exact List.mem_cons_of_mem _ (ih q hq)

theorem forbiddenOption_some (forbidden : List String) (my : ChoicesMade)
    (c : Criterion) (opts : List Opt) (o : Opt)
    (h : forbiddenOption forbidden my c opts = some o) :
    o ∈ opts ∧ forbidden.contains (my.add_criterion_option c o).json = true := by
  unfold forbiddenOption at h
  refine ⟨List.mem_of_find?_eq_some h, ?_⟩
  exact @List.find?_some Opt
    (fun o => forbidden.contains (my.add_criterion_option c o).json) o opts h

theorem json_depends_on_identifier (my : ChoicesMade) (c : Criterion)
    (o1 o2 : Opt) (h : o1.identifier = o2.identifier) :
    (my.add_criterion_option c o1).json = (my.add_criterion_option c o2).json := by
  unfold ChoicesMade.add_criterion_option ChoicesMade.add
  rw [h]

/-- Auxiliary strong induction (on fuel bounding the termination measure)
behind the preservation claim: an option whose one-step extension is not
forbidden survives into the output entry for its criterion. -/
theorem keeps_unforbidden_aux (forbidden : List String) (my : ChoicesMade) :
    ∀ n : Nat, ∀ cs : List Chooseable, weight cs ≤ n →
      ∀ ch ∈ cs, ∀ o ∈ ch.options.options,
        forbidden.contains (my.add_criterion_option ch.criterion o).json = false →
        ∃ ch2 ∈ visible_criteria forbidden my cs,
          ch2.criterion = ch.criterion ∧ o ∈ ch2.options.options := by
  intro n
  induction n with
  | zero =>
    intro cs hw ch hch
    cases cs with
    | nil => simp at hch
    | cons c rest => have := weight_pos (c :: rest) (by simp); omega
  | succ n ih =>
    intro cs hw ch hch o ho hnf
    have hne : cs ≠ [] := by intro h; rw [h] at hch; simp at hch
    rw [visible_criteria_ne_nil forbidden my cs hne]
    cases hp : processChooseable forbidden my ch with
    | accept =>
      exact ⟨ch, List.mem_append_left _ (mem_runPass_fst forbidden my ch cs hch hp),
        rfl, ho⟩
    | requeue c2 =>
      obtain ⟨o2, hfo, hc2, hlen⟩ := processChooseable_requeue_struct forbidden my ch c2 hp
      have ho2 : forbidden.contains (my.add_criterion_option ch.criterion o2).json = true :=
        (forbiddenOption_some forbidden my ch.criterion ch.options.options o2 hfo).2
      have hid : o.identifier ≠ o2.identifier := by
        intro hid
        rw [json_depends_on_identifier my ch.criterion o o2 hid] at hnf
        rw [ho2] at hnf
        simp at hnf
      have homem : o ∈ c2.options.options := by
        rw [hc2]
        exact mem_minusList o2 ch.options.options o ho hid
      have hrt : c2 ∈ (runPass forbidden my cs).2 :=
        mem_runPass_snd forbidden my ch c2 cs hch hp
      have hwlt := weight_runPass_snd_lt forbidden my cs hne
      have hnf2 : forbidden.contains (my.add_criterion_option c2.criterion o).json = false := by
        rw [hc2]
        exact hnf
      obtain ⟨ch2, hch2, hcrit, hoch2⟩ :=
        ih (runPass forbidden my cs).2 (by omega) c2 hrt o homem hnf2
      refine ⟨ch2, List.mem_append_right _ hch2, ?_, hoch2⟩
      rw [hcrit, hc2]
    | drop =>
      obtain ⟨o2, hfo, hlen⟩ := processChooseable_drop_struct forbidden my ch hp
      obtain ⟨ho2mem, ho2⟩ :=
        forbiddenOption_some forbidden my ch.criterion ch.options.options o2 hfo
      exfalso
      cases hopts : ch.options.options with
      | nil => rw [hopts] at ho; simp at ho
      | cons x xs =>
        cases xs with
        | nil =>
          rw [hopts] at ho ho2mem
          have hox : o = x := by simpa using ho
          have ho2x : o2 = x := by simpa using ho2mem
          rw [hox, ← ho2x, ho2] at hnf
          simp at hnf
        | cons y ys =>
          rw [hopts] at hlen
          simp at hlen

/-- C1: with one criterion whose OptionList is [a, b, c] and exactly one
forbidden serialized combination, the one obtained by extending the current
selection with option b, `visible_criteria` outputs that criterion with
OptionList [a, c]; and when all three options individually match distinct
forbidden combinations, the criterion is entirely absent from the output. -/
theorem claim_C1_filter_concrete :
    visible_criteria [(exMy.add_criterion_option exCriterion exB).json] exMy
        [⟨exCriterion, ⟨[exA, exB, exC]⟩⟩] =
      [⟨exCriterion, ⟨[exA, exC]⟩⟩] ∧
    visible_criteria
        [(exMy.add_criterion_option exCriterion exA).json,
         (exMy.add_criterion_option exCriterion exB).json,
         (exMy.add_criterion_option exCriterion exC).json] exMy
        [⟨exCriterion, ⟨[exA, exB, exC]⟩⟩] = [] := by
  constructor
  · rw [visible_criteria_eq_fuel _ _ 10 _ (by decide)]
    decide
  · rw [visible_criteria_eq_fuel _ _ 10 _ (by decide)]
    decide

/-- C2: for every criteria list, forbidden set and current selection, the
visible-criteria filter never removes an option whose hypothetical one-step
extension of the current selection serializes to none of the forbidden
strings: every such option is present in the output for its criterion. -/
theorem claim_C2_never_removes_unforbidden (forbidden : List String)
    (my : ChoicesMade) (cs : List Chooseable) (ch : Chooseable) (o : Opt)
    (hch : ch ∈ cs) (ho : o ∈ ch.options.options)
    (hnf : forbidden.contains (my.add_criterion_option ch.criterion o).json = false) :
    ∃ ch2 ∈ visible_criteria forbidden my cs,
      ch2.criterion = ch.criterion ∧ o ∈ ch2.options.options :=
  keeps_unforbidden_aux forbidden my (weight cs) cs le_rfl ch hch o ho hnf

/-- Witness for C2 at a concrete input: option a (unforbidden) survives the
filtering that removes option b. -/
theorem claim_C2_witness :
    ∃ ch2 ∈ visible_criteria [(exMy.add_criterion_option exCriterion exB).json] exMy
        [⟨exCriterion, ⟨[exA, exB, exC]⟩⟩],
      ch2.criterion = Chooseable.criterion ⟨exCriterion, ⟨[exA, exB, exC]⟩⟩ ∧
        exA ∈ ch2.options.options :=
  claim_C2_never_removes_unforbidden
    [(exMy.add_criterion_option exCriterion exB).json] exMy
    [⟨exCriterion, ⟨[exA, exB, exC]⟩⟩] ⟨exCriterion, ⟨[exA, exB, exC]⟩⟩ exA
    (by decide) (by decide) (by decide)

theorem runPass_snd_from (forbidden : List String) (my : ChoicesMade) :
    ∀ cs : List Chooseable, ∀ c2 ∈ (runPass forbidden my cs).2,
      ∃ c ∈ cs, processChooseable forbidden my c = PassResult.requeue c2 := by
  intro cs
  induction cs with
  | nil => intro c2 h; simp [runPass] at h
  | cons d rest ih =>
    intro c2 h
    have hshape : runPass forbidden my (d :: rest) =
        (match processChooseable forbidden my d with
          | PassResult.accept =>
            (d :: (runPass forbidden my rest).1, (runPass forbidden my rest).2)
          | PassResult.requeue c3 =>
            ((runPass forbidden my rest).1, c3 :: (runPass forbidden my rest).2)
          | PassResult.drop => runPass forbidden my rest) := rfl
    rw [hshape] at h
    cases hp : processChooseable forbidden my d with
    | accept =>
      rw [hp] at h
      obtain ⟨c, hc, hc2⟩ := ih c2 h
      exact ⟨c, List.mem_cons_of_mem _ hc, hc2⟩
    | requeue c3 =>
      rw [hp] at h
      rcases List.mem_cons.mp h with rfl | h
      · exact ⟨d, List.mem_cons_self _ _, hp⟩
      · obtain ⟨c, hc, hc2⟩ := ih c2 h
        exact ⟨c, List.mem_cons_of_mem _ hc, hc2⟩
    | drop =>
      rw [hp] at h
      obtain ⟨c, hc, hc2⟩ := ih c2 h
      exact ⟨c, List.mem_cons_of_mem _ hc, hc2⟩

/-- Iterating only the retry side of the pass: the sequence of work-lists
the while loop sees. -/
def retryIter (forbidden : List String) (my : ChoicesMade) :
    Nat → List Chooseable → List Chooseable
  | 0, cs => cs
  | n + 1, cs => retryIter forbidden my n (runPass forbidden my cs).2

theorem retryIter_reaches_nil_aux (forbidden : List String) (my : ChoicesMade) :
    ∀ m : Nat, ∀ cs : List Chooseable, weight cs ≤ m →
      ∃ n : Nat, retryIter forbidden my n cs = [] := by
  intro m
  induction m with
  | zero =>
    intro cs hw
    cases cs with
    | nil => exact ⟨0, rfl⟩
    | cons c rest => have := weight_pos (c :: rest) (by simp); omega
  | succ m ih =>
    intro cs hw
    cases hcs : cs with
    | nil => exact ⟨0, rfl⟩
    | cons c rest =>
      subst hcs
      have hlt := weight_runPass_snd_lt forbidden my (c :: rest) (by simp)
      obtain ⟨n, hn⟩ := ih (runPass forbidden my (c :: rest)).2 (by omega)
      exact ⟨n + 1, hn⟩

/-- C3: the work-list loop terminates on every finite input: every
re-queued pair stems from a current pair with the same criterion and a
strictly shorter OptionList, and iterating passes reaches the empty
work-list after finitely many steps. -/
theorem claim_C3_termination (forbidden : List String) (my : ChoicesMade) :
    (∀ cs : List Chooseable, ∀ c2 ∈ (runPass forbidden my cs).2,
        ∃ c ∈ cs, c2.criterion = c.criterion ∧
          c2.options.options.length < c.options.options.length) ∧
    (∀ cs : List Chooseable, ∃ n : Nat, retryIter forbidden my n cs = []) := by
  constructor
  · intro cs c2 h
    obtain ⟨c, hc, hp⟩ := runPass_snd_from forbidden my cs c2 h
    obtain ⟨hcrit, hlen⟩ := requeue_shape forbidden my c c2 hp
    exact ⟨c, hc, hcrit, by omega⟩
  · intro cs
    exact retryIter_reaches_nil_aux forbidden my (weight cs) cs le_rfl

/-- Witness for C3 at a concrete input: the pair re-queued after removing
forbidden option a is strictly shorter, and the loop empties. -/
theorem claim_C3_witness :
    (∃ c ∈ [(⟨exCriterion, ⟨[exA, exB]⟩⟩ : Chooseable)],
        (⟨exCriterion, ⟨[exB]⟩⟩ : Chooseable).criterion = c.criterion ∧
          (⟨exCriterion, ⟨[exB]⟩⟩ : Chooseable).options.options.length <
            c.options.options.length) ∧
    (∃ n : Nat, retryIter [(exMy.add_criterion_option exCriterion exA).json] exMy n
        [⟨exCriterion, ⟨[exA, exB]⟩⟩] = []) := by
  constructor
  · exact (claim_C3_termination
        [(exMy.add_criterion_option exCriterion exA).json] exMy).1
      [⟨exCriterion, ⟨[exA, exB]⟩⟩] ⟨exCriterion, ⟨[exB]⟩⟩ (by decide)
  · exact (claim_C3_termination
        [(exMy.add_criterion_option exCriterion exA).json] exMy).2
      [⟨exCriterion, ⟨[exA, exB]⟩⟩]

/-- A second fixture criterion, distinct from `exCriterion`. -/
def exCriterion2 : Criterion := ⟨"crit2", "another criterion"⟩

/-- The loop of `visible_criteria` with each output entry annotated by the
index of the pass that accepted it (pass index = number of options removed
from that entry so far). Erasing the annotations recovers
`visible_criteria` (`visibleAnnot_snd`). -/
def visibleAnnot (forbidden : List String) (my : ChoicesMade) (k : Nat)
    (cs : List Chooseable) : List (Nat × Chooseable) :=
  if h : cs = [] then []
  else
    ((runPass forbidden my cs).1.map fun c => (k, c)) ++
      visibleAnnot forbidden my (k + 1) (runPass forbidden my cs).2
termination_by weight cs
decreasing_by exact weight_runPass_snd_lt forbidden my cs h

theorem visibleAnnot_nil (forbidden : List String) (my : ChoicesMade) (k : Nat) :
    visibleAnnot forbidden my k [] = [] := by
  rw [visibleAnnot]
  simp

theorem visibleAnnot_ne_nil (forbidden : List String) (my : ChoicesMade) (k : Nat)
    (cs : List Chooseable) (h : cs ≠ []) :
    visibleAnnot forbidden my k cs =
      ((runPass forbidden my cs).1.map fun c => (k, c)) ++
        visibleAnnot forbidden my (k + 1) (runPass forbidden my cs).2 := by
  rw [visibleAnnot]
  simp [h]

/-- Fuel-bounded twin of `visibleAnnot` for kernel evaluation on concrete
inputs. -/
def visibleAnnotFuel (forbidden : List String) (my : ChoicesMade) :
    Nat → Nat → List Chooseable → List (Nat × Chooseable)
  | _, _, [] => []
  | 0, _, _ :: _ => []
  | fuel + 1, k, c :: rest =>
    ((runPass forbidden my (c :: rest)).1.map fun d => (k, d)) ++
      visibleAnnotFuel forbidden my fuel (k + 1) (runPass forbidden my (c :: rest)).2

theorem visibleAnnot_eq_fuel (forbidden : List String) (my : ChoicesMade) :
    ∀ (fuel : Nat) (k : Nat) (cs : List Chooseable), weight cs ≤ fuel →
      visibleAnnot forbidden my k cs = visibleAnnotFuel forbidden my fuel k cs := by
  intro fuel
  induction fuel with
  | zero =>
    intro k cs hw
    cases cs with
    | nil => rw [visibleAnnot_nil]; rfl
    | cons c rest => have := weight_pos (c :: rest) (by simp); omega
  | succ fuel ih =>
    intro k cs hw
    cases cs with
    | nil => rw [visibleAnnot_nil]; rfl
    | cons c rest =>
      rw [visibleAnnot_ne_nil forbidden my k (c :: rest) (by simp)]
      show _ = ((runPass forbidden my (c :: rest)).1.map fun d => (k, d)) ++
        visibleAnnotFuel forbidden my fuel (k + 1) (runPass forbidden my (c :: rest)).2
      have hlt := weight_runPass_snd_lt forbidden my (c :: rest) (by simp)
      rw [ih (k + 1) (runPass forbidden my (c :: rest)).2 (by omega)]

theorem visibleAnnot_snd (forbidden : List String) (my : ChoicesMade) :
    ∀ (n : Nat) (k : Nat) (cs : List Chooseable), weight cs ≤ n →
      (visibleAnnot forbidden my k cs).map Prod.snd = visible_criteria forbidden my cs := by
  intro n
  induction n with
  | zero =>
    intro k cs hw
    cases cs with
    | nil => rw [visibleAnnot_nil, visible_criteria_nil]; rfl
    | cons c rest => have := weight_pos (c :: rest) (by simp); omega
  | succ n ih =>
    intro k cs hw
    cases hcs : cs with
    | nil => rw [visibleAnnot_nil, visible_criteria_nil]; rfl
    | cons c rest =>
      subst hcs
      rw [visibleAnnot_ne_nil forbidden my k (c :: rest) (by simp),
        visible_criteria_ne_nil forbidden my (c :: rest) (by simp)]
      have hlt := weight_runPass_snd_lt forbidden my (c :: rest) (by simp)
      rw [List.map_append, List.map_map,
        ih (k + 1) (runPass forbidden my (c :: rest)).2 (by omega)]
      congr 1
      simp

theorem visibleAnnot_fst_ge (forbidden : List String) (my : ChoicesMade) :
    ∀ (n : Nat) (k : Nat) (cs : List Chooseable), weight cs ≤ n →
      ∀ p ∈ visibleAnnot forbidden my k cs, k ≤ p.1 := by
  intro n
  induction n with
  | zero =>
    intro k cs hw p hp
    cases cs with
    | nil => rw [visibleAnnot_nil] at hp; simp at hp
    | cons c rest => have := weight_pos (c :: rest) (by simp); omega
  | succ n ih =>
    intro k cs hw p hp
    cases hcs : cs with
    | nil => rw [hcs, visibleAnnot_nil] at hp; simp at hp
    | cons c rest =>
      subst hcs
      rw [visibleAnnot_ne_nil forbidden my k (c :: rest) (by simp)] at hp
      have hlt := weight_runPass_snd_lt forbidden my (c :: rest) (by simp)
      rcases List.mem_append.mp hp with hp | hp
      · obtain ⟨d, -, hd⟩ := List.mem_map.mp hp
        rw [← hd]
      · have := ih (k + 1) (runPass forbidden my (c :: rest)).2 (by omega) p hp
        omega

theorem pairwise_const_fst (k : Nat) :
    ∀ l : List Chooseable,
      List.Pairwise (fun p q : Nat × Chooseable => p.1 ≤ q.1) (l.map fun c => (k, c)) := by
  intro l
  induction l with
  | nil => exact List.Pairwise.nil
  | cons c rest ih =>
    rw [List.map_cons, List.pairwise_cons]
    refine ⟨?_, ih⟩
    intro b hb
    obtain ⟨d, -, hd⟩ := List.mem_map.mp hb
    rw [← hd]

theorem visibleAnnot_pairwise (forbidden : List String) (my : ChoicesMade) :
    ∀ (n : Nat) (k : Nat) (cs : List Chooseable), weight cs ≤ n →
      List.Pairwise (fun p q => p.1 ≤ q.1) (visibleAnnot forbidden my k cs) := by
  intro n
  induction n with
  | zero =>
    intro k cs hw
    cases cs with
    | nil => rw [visibleAnnot_nil]; exact List.Pairwise.nil
    | cons c rest => have := weight_pos (c :: rest) (by simp); omega
  | succ n ih =>
    intro k cs hw
    cases hcs : cs with
    | nil => rw [visibleAnnot_nil]; exact List.Pairwise.nil
    | cons c rest =>
      subst hcs
      rw [visibleAnnot_ne_nil forbidden my k (c :: rest) (by simp)]
      have hlt := weight_runPass_snd_lt forbidden my (c :: rest) (by simp)
      rw [List.pairwise_append]
      refine ⟨pairwise_const_fst k _, ih (k + 1) (runPass forbidden my (c :: rest)).2 (by omega), ?_⟩
      intro p hp q hq
      obtain ⟨d, -, hd⟩ := List.mem_map.mp hp
      have hge := visibleAnnot_fst_ge forbidden my (weight (runPass forbidden my (c :: rest)).2)
        (k + 1) (runPass forbidden my (c :: rest)).2 le_rfl q hq
      rw [← hd]
      show k ≤ q.1
      omega

theorem runPass_fst_from (forbidden : List String) (my : ChoicesMade) :
    ∀ cs : List Chooseable, ∀ c2 ∈ (runPass forbidden my cs).1, c2 ∈ cs := by
  intro cs
  induction cs with
  | nil => intro c2 h; simp [runPass] at h
  | cons d rest ih =>
    intro c2 h
    have hshape : runPass forbidden my (d :: rest) =
        (match processChooseable forbidden my d with
          | PassResult.accept =>
            (d :: (runPass forbidden my rest).1, (runPass forbidden my rest).2)
          | PassResult.requeue c3 =>
            ((runPass forbidden my rest).1, c3 :: (runPass forbidden my rest).2)
          | PassResult.drop => runPass forbidden my rest) := rfl
    rw [hshape] at h
    cases hp : processChooseable forbidden my d with
    | accept =>
      rw [hp] at h
      rcases List.mem_cons.mp h with rfl | h
      · exact List.mem_cons_self _ _
      · exact List.mem_cons_of_mem _ (ih c2 h)
    | requeue c3 =>
      rw [hp] at h
      exact List.mem_cons_of_mem _ (ih c2 h)
    | drop =>
      rw [hp] at h
      exact List.mem_cons_of_mem _ (ih c2 h)

theorem runPass_fst_sublist (forbidden : List String) (my : ChoicesMade) :
    ∀ cs : List Chooseable, (runPass forbidden my cs).1.Sublist cs := by
  intro cs
  induction cs with
  | nil => exact List.Sublist.refl _
  | cons d rest ih =>
    show (match processChooseable forbidden my d with
      | PassResult.accept =>
        (d :: (runPass forbidden my rest).1, (runPass forbidden my rest).2)
      | PassResult.requeue c3 =>
        ((runPass forbidden my rest).1, c3 :: (runPass forbidden my rest).2)
      | PassResult.drop => runPass forbidden my rest).1.Sublist (d :: rest)
    cases processChooseable forbidden my d with
    | accept => exact List.Sublist.cons₂ _ ih
    | requeue c3 => exact List.Sublist.cons _ ih
    | drop => exact List.Sublist.cons _ ih

theorem visibleAnnot_provenance (forbidden : List String) (my : ChoicesMade) :
    ∀ (n : Nat) (k : Nat) (cs : List Chooseable), weight cs ≤ n →
      ∀ (j : Nat) (ch2 : Chooseable), (j, ch2) ∈ visibleAnnot forbidden my k cs →
        k ≤ j ∧ ∃ ch ∈ cs, ch2.criterion = ch.criterion ∧
          ch2.options.options.length + (j - k) = ch.options.options.length ∧
          (j = k → ch2 = ch) := by
  intro n
  induction n with
  | zero =>
    intro k cs hw j ch2 hmem
    cases cs with
    | nil => rw [visibleAnnot_nil] at hmem; simp at hmem
    | cons c rest => have := weight_pos (c :: rest) (by simp); omega
  | succ n ih =>
    intro k cs hw j ch2 hmem
    cases hcs : cs with
    | nil => rw [hcs, visibleAnnot_nil] at hmem; simp at hmem
    | cons c rest =>
      subst hcs
      rw [visibleAnnot_ne_nil forbidden my k (c :: rest) (by simp)] at hmem
      have hlt := weight_runPass_snd_lt forbidden my (c :: rest) (by simp)
      rcases List.mem_append.mp hmem with hmem | hmem
      · obtain ⟨d, hd, hjd⟩ := List.mem_map.mp hmem
        have hk : k = j := congrArg Prod.fst hjd
        have hd2 : d = ch2 := congrArg Prod.snd hjd
        subst hk
        subst hd2
        refine ⟨le_rfl, d, runPass_fst_from forbidden my (c :: rest) d hd, rfl, ?_, fun _ => rfl⟩
        omega
      · obtain ⟨hkj, cr, hcr, hcrit, hlen, heq⟩ :=
          ih (k + 1) (runPass forbidden my (c :: rest)).2 (by omega) j ch2 hmem
        obtain ⟨c0, hc0, hp0⟩ := runPass_snd_from forbidden my (c :: rest) cr hcr
        obtain ⟨hcrit0, hlen0⟩ := requeue_shape forbidden my c0 cr hp0
        refine ⟨by omega, c0, hc0, by rw [hcrit, hcrit0], by omega, ?_⟩
        intro hj
        exact absurd hj (by omega)

/-- C10: the output of `visible_criteria` is grouped by pass. Annotating
each output entry with its pass index: erasing annotations recovers the
output; pass indices are nondecreasing along the output; an entry of pass
index j stems from an input pair with the same criterion and exactly j
options removed, and a pass-0 entry is that input pair unmodified; the
pass-0 entries keep the wrapped source's original order (the accepted part
of a pass is a sublist of its work-list); and the filter can reorder output
relative to the input, shown on a concrete input whose first criterion
needs one removal and therefore comes out after the untouched second one. -/
theorem claim_C10_output_grouped_by_pass (forbidden : List String)
    (my : ChoicesMade) (cs : List Chooseable) :
    ((visibleAnnot forbidden my 0 cs).map Prod.snd = visible_criteria forbidden my cs) ∧
    List.Pairwise (fun p q => p.1 ≤ q.1) (visibleAnnot forbidden my 0 cs) ∧
    (∀ (j : Nat) (ch2 : Chooseable), (j, ch2) ∈ visibleAnnot forbidden my 0 cs →
      ∃ ch ∈ cs, ch2.criterion = ch.criterion ∧
        ch2.options.options.length + j = ch.options.options.length ∧
        (j = 0 → ch2 = ch)) ∧
    (runPass forbidden my cs).1.Sublist cs ∧
    visible_criteria [(exMy.add_criterion_option exCriterion exA).json] exMy
        [⟨exCriterion, ⟨[exA, exB]⟩⟩, ⟨exCriterion2, ⟨[exC]⟩⟩] =
      [⟨exCriterion2, ⟨[exC]⟩⟩, ⟨exCriterion, ⟨[exB]⟩⟩] := by
  refine ⟨visibleAnnot_snd forbidden my (weight cs) 0 cs le_rfl,
    visibleAnnot_pairwise forbidden my (weight cs) 0 cs le_rfl, ?_,
    runPass_fst_sublist forbidden my cs, ?_⟩
  · intro j ch2 hmem
    obtain ⟨-, ch, hch, hcrit, hlen, hj0⟩ :=
      visibleAnnot_provenance forbidden my (weight cs) 0 cs le_rfl j ch2 hmem
    exact ⟨ch, hch, hcrit, by omega, hj0⟩
  · rw [visible_criteria_eq_fuel _ _ 10 _ (by decide)]
    decide

/-- Witness for C10 at a concrete input: the entry accepted in pass 1 after
one removal is traced back to the input pair it came from. -/
theorem claim_C10_witness :
    ∃ ch ∈ [(⟨exCriterion, ⟨[exA, exB]⟩⟩ : Chooseable), ⟨exCriterion2, ⟨[exC]⟩⟩],
      (⟨exCriterion, ⟨[exB]⟩⟩ : Chooseable).criterion = ch.criterion ∧
        (⟨exCriterion, ⟨[exB]⟩⟩ : Chooseable).options.options.length + 1 =
          ch.options.options.length ∧
        (1 = 0 → (⟨exCriterion, ⟨[exB]⟩⟩ : Chooseable) = ch) :=
  (claim_C10_output_grouped_by_pass
      [(exMy.add_criterion_option exCriterion exA).json] exMy
      [⟨exCriterion, ⟨[exA, exB]⟩⟩, ⟨exCriterion2, ⟨[exC]⟩⟩]).2.2.1
    1 ⟨exCriterion, ⟨[exB]⟩⟩
    (by rw [visibleAnnot_eq_fuel _ _ 10 0 _ (by decide)]; decide)

/-- C5 counterexample: a forbidden combination referencing a criterion that
does not exist in the criteria space (identifier "ghost") is silently
ignored by `visible_criteria`: the computation returns its normal result,
the input unchanged, instead of signalling an error. The embedded code path
(augmented_datasource.py lines 97-134) contains no raise: a stale forbidden
string simply never compares equal to any hypothetical extension. -/
theorem claim_C5_counterexample :
    visible_criteria [ChoicesMade.json ⟨[("ghost", "x")]⟩] exMy
        [⟨exCriterion, ⟨[exA]⟩⟩] = [⟨exCriterion, ⟨[exA]⟩⟩] := by
  rw [visible_criteria_eq_fuel _ _ 10 _ (by decide)]
  decide

theorem forbiddenOption_cons_ne (s : String) (f : List String)
    (my : ChoicesMade) (c : Criterion) :
    ∀ opts : List Opt, (∀ o ∈ opts, (my.add_criterion_option c o).json ≠ s) →
      forbiddenOption (s :: f) my c opts = forbiddenOption f my c opts := by
  intro opts
  induction opts with
  | nil => intro h; rfl
  | cons o rest ih =>
    intro h
    have ho := h o (List.mem_cons_self _ _)
    have hco : (s :: f).contains (my.add_criterion_option c o).json =
        f.contains (my.add_criterion_option c o).json := by
      rw [List.contains_cons]
      simp [ho]
    unfold forbiddenOption
    rw [List.find?_cons, List.find?_cons]
    rw [hco]
    cases f.contains (my.add_criterion_option c o).json with
    | false => exact ih fun o2 ho2 => h o2 (List.mem_cons_of_mem _ ho2)
    | true => rfl

theorem processChooseable_cons_ne (s : String) (f : List String)
    (my : ChoicesMade) (c : Chooseable)
    (h : ∀ o ∈ c.options.options, (my.add_criterion_option c.criterion o).json ≠ s) :
    processChooseable (s :: f) my c = processChooseable f my c := by
  unfold processChooseable
  rw [forbiddenOption_cons_ne s f my c.criterion c.options.options h]

theorem runPass_cons_ne (s : String) (f : List String) (my : ChoicesMade) :
    ∀ cs : List Chooseable,
      (∀ ch ∈ cs, ∀ o ∈ ch.options.options,
        (my.add_criterion_option ch.criterion o).json ≠ s) →
      runPass (s :: f) my cs = runPass f my cs := by
  intro cs
  induction cs with
  | nil => intro h; rfl
  | cons c rest ih =>
    intro h
    show (let r := runPass (s :: f) my rest
      match processChooseable (s :: f) my c with
      | PassResult.accept => (c :: r.1, r.2)
      | PassResult.requeue c2 => (r.1, c2 :: r.2)
      | PassResult.drop => r) =
      (let r := runPass f my rest
      match processChooseable f my c with
      | PassResult.accept => (c :: r.1, r.2)
      | PassResult.requeue c2 => (r.1, c2 :: r.2)
      | PassResult.drop => r)
    rw [processChooseable_cons_ne s f my c (h c (List.mem_cons_self _ _)),
      ih fun ch hch => h ch (List.mem_cons_of_mem _ hch)]

theorem runPass_snd_preserves_unmatched (f : List String) (my : ChoicesMade)
    (s : String) (cs : List Chooseable)
    (h : ∀ ch ∈ cs, ∀ o ∈ ch.options.options,
      (my.add_criterion_option ch.criterion o).json ≠ s) :
    ∀ c2 ∈ (runPass f my cs).2, ∀ o ∈ c2.options.options,
      (my.add_criterion_option c2.criterion o).json ≠ s := by
  intro c2 hc2 o ho
  obtain ⟨c, hc, hp⟩ := runPass_snd_from f my cs c2 hc2
  obtain ⟨o2, -, hstruct, -⟩ := processChooseable_requeue_struct f my c c2 hp
  have homem : o ∈ c.options.options := by
    apply minusList_subset o2 c.options.options
    rw [hstruct] at ho
    exact ho
  have hcrit : c2.criterion = c.criterion := by rw [hstruct]
  rw [hcrit]
  exact h c hc o homem

theorem stale_spec_ignored_aux (forbidden : List String) (my : ChoicesMade)
    (s : String) :
    ∀ n : Nat, ∀ cs : List Chooseable, weight cs ≤ n →
      (∀ ch ∈ cs, ∀ o ∈ ch.options.options,
        (my.add_criterion_option ch.criterion o).json ≠ s) →
      visible_criteria (s :: forbidden) my cs = visible_criteria forbidden my cs := by
  intro n
  induction n with
  | zero =>
    intro cs hw h
    cases cs with
    | nil => rw [visible_criteria_nil, visible_criteria_nil]
    | cons c rest => have := weight_pos (c :: rest) (by simp); omega
  | succ n ih =>
    intro cs hw h
    cases hcs : cs with
    | nil => rw [visible_criteria_nil, visible_criteria_nil]
    | cons c rest =>
      subst hcs
      rw [visible_criteria_ne_nil (s :: forbidden) my (c :: rest) (by simp),
        visible_criteria_ne_nil forbidden my (c :: rest) (by simp)]
      rw [runPass_cons_ne s forbidden my (c :: rest) h]
      have hlt := weight_runPass_snd_lt forbidden my (c :: rest) (by simp)
      rw [ih (runPass forbidden my (c :: rest)).2 (by omega)
        (runPass_snd_preserves_unmatched forbidden my s (c :: rest) h)]

/-- C5 amended: a forbidden-combination spec whose serialized selection
matches no hypothetical one-step extension of the current selection (in
particular one referencing a criterion or option absent from the wrapped
source's criteria space) is silently ignored: `visible_criteria` returns
exactly what it would return without that spec, and no error is raised. -/
theorem claim_C5_stale_spec_ignored (forbidden : List String) (my : ChoicesMade)
    (cs : List Chooseable) (s : String)
    (hs : ∀ ch ∈ cs, ∀ o ∈ ch.options.options,
      (my.add_criterion_option ch.criterion o).json ≠ s) :
    visible_criteria (s :: forbidden) my cs = visible_criteria forbidden my cs :=
  stale_spec_ignored_aux forbidden my s (weight cs) cs le_rfl hs

/-- Witness for the amended C5 at a concrete input: dropping the stale
forbidden string referencing criterion "ghost" does not change the output. -/
theorem claim_C5_witness :
    visible_criteria [ChoicesMade.json ⟨[("ghost", "x")]⟩] exMy
        [⟨exCriterion, ⟨[exA]⟩⟩] =
      visible_criteria [] exMy [⟨exCriterion, ⟨[exA]⟩⟩] :=
  claim_C5_stale_spec_ignored [] exMy [⟨exCriterion, ⟨[exA]⟩⟩]
    (ChoicesMade.json ⟨[("ghost", "x")]⟩) (by decide)

/-- C4: canonical serialization is key-sorted and insertion-order
independent. First conjunct: serialization of any two ChoicesMade whose
entry lists are permutations of each other coincide. Second: every
serialization renders some key-sorted (`pairRel`-ordered) permutation of
the entries as the JSON object. Third and fourth: the concrete expectation
of test_json_sorts_keys holds for both insertion orders. -/
theorem claim_C4_json_key_sorted :
    (∀ l1 l2 : List (String × String), l1.Perm l2 →
      ChoicesMade.json ⟨l1⟩ = ChoicesMade.json ⟨l2⟩) ∧
    (∀ cm : ChoicesMade, ∃ l : List (String × String), l.Perm cm.entries ∧
      List.Pairwise pairRel l ∧
      cm.json = "\x7b" ++ String.intercalate ", " (l.map renderPair) ++ "\x7d") ∧
    ChoicesMade.json ⟨[("test", "value"), ("a", "b")]⟩ =
      "\x7b\"a\": \"b\", \"test\": \"value\"\x7d" ∧
    ChoicesMade.json ⟨[("a", "b"), ("test", "value")]⟩ =
      "\x7b\"a\": \"b\", \"test\": \"value\"\x7d" := by
  refine ⟨?_, ?_, by decide, by decide⟩
  · intro l1 l2 hp
    have hsort : List.insertionSort pairRel l1 = List.insertionSort pairRel l2 :=
      List.eq_of_perm_of_sorted
        ((List.perm_insertionSort pairRel l1).trans
          (hp.trans (List.perm_insertionSort pairRel l2).symm))
        (List.sorted_insertionSort pairRel l1)
        (List.sorted_insertionSort pairRel l2)
    unfold ChoicesMade.json
    rw [hsort]
  · intro cm
    exact ⟨List.insertionSort pairRel cm.entries,
      List.perm_insertionSort pairRel cm.entries,
      List.sorted_insertionSort pairRel cm.entries, rfl⟩

/-- Witness for C4 at a concrete input: the two insertion orders of the
test fixture serialize identically. -/
theorem claim_C4_witness :
    ChoicesMade.json ⟨[("test", "value"), ("a", "b")]⟩ =
      ChoicesMade.json ⟨[("a", "b"), ("test", "value")]⟩ :=
  claim_C4_json_key_sorted.1 [("test", "value"), ("a", "b")]
    [("a", "b"), ("test", "value")] (by decide)

/-- A location record as yielded by a datasource: identifier, WGS84
coordinates (coordinates kept as integers; only equality of coordinates
matters to the claims), and the color slot written by decoration. -/
structure Location where
  identifier : String
  latitude : Int
  longitude : Int
  color : Option String
deriving DecidableEq

/-- Modelled from the spec: the color scale collaborator (models.py is
missing from src/); `color_for` maps a cached value to a hex color string,
possibly with a leading hash sign. -/
structure ColorMap where
  color_for : Int → String

/-- Modelled from the spec: a `ColorFromLatestValue` spec (models.py is
missing from src/): the nullable reference to the layer holding cached
latest values, and the color scale. -/
structure ColorFromLatestValue where
  layer_to_get_color_from : Option String
  colormap : ColorMap

/-- Python dict lookup over insertion order: the LAST binding for a key
wins, matching `cached_values[locationid] = value` run over the cache
entries in order. -/
def lookupLast (l : List (String × Int)) (k : String) : Option Int :=
  (l.reverse.find? (fun p => p.1 == k)).map (fun p => p.2)

/-- The `color.startswith("#")` / `color[1:]` step of
`AugmentedDataSource.locations`: strip one leading hash sign if present. -/
def stripHash (s : String) : String :=
  match s.data with
  | [] => s
  | c :: rest => if c = '#' then ⟨rest⟩ else s

/-- The cache rows loaded by `AugmentedDataSource.locations`: the
DatasourceCache entries of `layer_to_get_color_from`, or none at all when
that reference is unset. -/
def cachedColorValues (cf : ColorFromLatestValue)
    (cache : String → List (String × Int)) : List (String × Int) :=
  match cf.layer_to_get_color_from with
  | none => []
  | some layer => cache layer

/-- The embedding of `AugmentedDataSource.locations`
(src/lizard_datasource/augmented_datasource.py, lines 150-179). `original`
is the wrapped source's location sequence, `colorfrom` the result of
`self._colorfrom()` and `cache` the DatasourceCache rows per layer. With
`bare` or no colorfrom spec the locations pass through unchanged; otherwise
each location's color is the cached value mapped through the color scale
(hash sign stripped), defaulting to gray "888888" with no cached value. -/
def locations (bare : Bool) (colorfrom : Option ColorFromLatestValue)
    (cache : String → List (String × Int)) (original : List Location) :
    List Location :=
  if bare then original
  else
    match colorfrom with
    | none => original
    | some cf =>
      original.map fun location =>
        match lookupLast (cachedColorValues cf cache) location.identifier with
        | none => { location with color := some "888888" }
        | some value =>
          { location with color := some (stripHash (cf.colormap.color_for value)) }

/-- C7: in a non-bare call with a color spec, a yielded location with no
cached value for its identifier carries the fixed gray "888888"; one with a
cached value carries the color scale's output with any leading hash sign
stripped; and a bare call applies no decoration at all. -/
theorem claim_C7_color_decoration :
    (∀ (colorfrom : Option ColorFromLatestValue)
        (cache : String → List (String × Int)) (original : List Location),
      locations true colorfrom cache original = original) ∧
    (∀ (cf : ColorFromLatestValue) (cache : String → List (String × Int))
        (original : List Location) (loc : Location), loc ∈ original →
      lookupLast (cachedColorValues cf cache) loc.identifier = none →
      { loc with color := some "888888" } ∈ locations false (some cf) cache original) ∧
    (∀ (cf : ColorFromLatestValue) (cache : String → List (String × Int))
        (original : List Location) (loc : Location) (value : Int), loc ∈ original →
      lookupLast (cachedColorValues cf cache) loc.identifier = some value →
      { loc with color := some (stripHash (cf.colormap.color_for value)) } ∈
        locations false (some cf) cache original) := by
  refine ⟨fun colorfrom cache original => rfl, ?_, ?_⟩
  · intro cf cache original loc hmem hnone
    show _ ∈ original.map _
    refine List.mem_map.mpr ⟨loc, hmem, ?_⟩
    rw [hnone]
  · intro cf cache original loc value hmem hval
    show _ ∈ original.map _
    refine List.mem_map.mpr ⟨loc, hmem, ?_⟩
    rw [hval]

/-- Fixture color spec: reads cached values from layer "LAYER", colors
every value as "#ff0000". -/
def exCF : ColorFromLatestValue := ⟨some "LAYER", ⟨fun _ => "#ff0000"⟩⟩

/-- Fixture cache: layer "LAYER" holds value 5 for location "L1". -/
def exCache : String → List (String × Int) :=
  fun layer => if layer = "LAYER" then [("L1", 5)] else []

/-- Witness for C7 at a concrete input: location "L1" has cached value 5,
so it is yielded colored "ff0000" (hash sign stripped); and an unrelated
location "L2" is yielded gray. -/
theorem claim_C7_witness :
    locations true (some exCF) exCache [⟨"L1", 0, 0, none⟩] = [⟨"L1", 0, 0, none⟩] ∧
    (⟨"L2", 0, 0, some "888888"⟩ : Location) ∈
      locations false (some exCF) exCache [⟨"L1", 0, 0, none⟩, ⟨"L2", 0, 0, none⟩] ∧
    (⟨"L1", 0, 0, some "ff0000"⟩ : Location) ∈
      locations false (some exCF) exCache [⟨"L1", 0, 0, none⟩, ⟨"L2", 0, 0, none⟩] :=
  ⟨claim_C7_color_decoration.1 (some exCF) exCache [⟨"L1", 0, 0, none⟩],
   claim_C7_color_decoration.2.1 exCF exCache
     [⟨"L1", 0, 0, none⟩, ⟨"L2", 0, 0, none⟩] ⟨"L2", 0, 0, none⟩
     (by decide) (by decide),
   claim_C7_color_decoration.2.2 exCF exCache
     [⟨"L1", 0, 0, none⟩, ⟨"L2", 0, 0, none⟩] ⟨"L1", 0, 0, none⟩ 5
     (by decide) (by decide)⟩

/-- C9: in a non-bare call whose color spec has `layer_to_get_color_from`
unset, no cached values are loaded, so decoration still runs and every
yielded location gets the default gray "888888". -/
theorem claim_C9_unset_color_layer_all_gray (cm : ColorMap)
    (cache : String → List (String × Int)) (original : List Location) :
    locations false (some ⟨none, cm⟩) cache original =
      original.map fun loc => { loc with color := some "888888" } := by
  show original.map _ = original.map _
  apply List.map_congr_left
  intro loc hmem
  rfl

/-- Modelled from the spec: an `ExtraGraphLine` spec (models.py is missing
from src/): the nullable identifier-mapping collaborator (an association
list from target-layer identifiers to source-layer identifiers), the
target layer the line is added to, the source layer the line is taken
from, and the maximum distance for proximity mapping. -/
structure ExtraGraphLine where
  identifier_mapping : Option (List (String × String))
  layer_to_add_line_to : String
  layer_to_get_line_from : String
  max_distance_for_mapping : Int

/-- Modelled from the spec: `map_identifier` translates the requested
location identifier through the identifier-mapping collaborator, yielding
nothing when there is no mapping or no entry for the identifier. -/
def ExtraGraphLine.map_identifier (egl : ExtraGraphLine) (location_id : String) :
    Option String :=
  match egl.identifier_mapping with
  | none => none
  | some m => List.lookup location_id m

/-- One overlay step of `AugmentedDataSource.timeseries`: Python's
`if not extra_identifier: continue` skips both a missing entry and an empty
string (falsy), and `if extra_timeseries:` skips a falsy fetch result. -/
def overlayStep {α : Type} (add : α → α → α) (fetch : String → String → Option α)
    (location_id : String) (ts : α) (egl : ExtraGraphLine) : α :=
  match egl.map_identifier location_id with
  | none => ts
  | some extra_identifier =>
    if extra_identifier = "" then ts
    else
      match fetch egl.layer_to_get_line_from extra_identifier with
      | none => ts
      | some extra_timeseries => add ts extra_timeseries

/-- The embedding of `AugmentedDataSource.timeseries`
(src/lizard_datasource/augmented_datasource.py, lines 194-215). `primary`
is the wrapped source's result, `egls` the ExtraGraphLine specs targeting
this layer, `fetch source_layer identifier` the source layer's time-series
for the mapped identifier over the requested range, and `add` the
time-series merge operation. -/
def timeseries {α : Type} (add : α → α → α) (egls : List ExtraGraphLine)
    (fetch : String → String → Option α) (primary : α) (location_id : String) : α :=
  egls.foldl (overlayStep add fetch location_id) primary

/-- C8: an extra-graph-line spec whose identifier mapping has no entry for
the requested identifier (or a falsy one) is skipped without error, the
remaining specs still processed and the primary result still returned (in
particular, with no other spec the primary is returned as is); and a spec
with a mapping entry has the source layer's series for the mapped
identifier merged in via the add operation. -/
theorem claim_C8_overlay_skip_or_merge :
    (∀ (α : Type) (add : α → α → α) (egl : ExtraGraphLine)
        (rest : List ExtraGraphLine) (fetch : String → String → Option α)
        (primary : α) (location_id : String),
      egl.map_identifier location_id = none ∨
        egl.map_identifier location_id = some "" →
      timeseries add (egl :: rest) fetch primary location_id =
        timeseries add rest fetch primary location_id) ∧
    (∀ (α : Type) (add : α → α → α) (fetch : String → String → Option α)
        (primary : α) (location_id : String),
      timeseries add [] fetch primary location_id = primary) ∧
    (∀ (α : Type) (add : α → α → α) (egl : ExtraGraphLine)
        (fetch : String → String → Option α) (primary extra : α)
        (location_id mapped : String),
      egl.map_identifier location_id = some mapped → mapped ≠ "" →
      fetch egl.layer_to_get_line_from mapped = some extra →
      timeseries add [egl] fetch primary location_id = add primary extra) := by
  refine ⟨?_, fun α add fetch primary location_id => rfl, ?_⟩
  · intro α add egl rest fetch primary location_id h
    show rest.foldl _ (overlayStep add fetch location_id primary egl) = _
    rcases h with h | h <;>
      · unfold overlayStep
        rw [h]
        try rfl
  · intro α add egl fetch primary extra location_id mapped hmap hne hfetch
    show overlayStep add fetch location_id primary egl = add primary extra
    simp only [overlayStep, hmap]
    rw [if_neg hne, hfetch]

/-- Fixture overlay spec: maps target identifier "T1" to source identifier
"S1", taking lines from layer "X" into layer "Y". -/
def exEGL : ExtraGraphLine := ⟨some [("T1", "S1")], "Y", "X", 10⟩

/-- Witness for C8 at concrete inputs over integer time-series with
addition as the merge: a spec with no entry for "T9" is skipped leaving the
primary 100, and the spec's series 7 for the mapped identifier of "T1" is
merged into the primary giving 107. -/
theorem claim_C8_witness :
    timeseries (fun a b : Int => a + b) [exEGL]
        (fun layer i => if layer = "X" ∧ i = "S1" then some 7 else none) 100 "T9" =
      timeseries (fun a b : Int => a + b) []
        (fun layer i => if layer = "X" ∧ i = "S1" then some 7 else none) 100 "T9" ∧
    timeseries (fun a b : Int => a + b) [exEGL]
        (fun layer i => if layer = "X" ∧ i = "S1" then some 7 else none) 100 "T1" =
      100 + 7 :=
  ⟨claim_C8_overlay_skip_or_merge.1 Int (fun a b => a + b) exEGL []
      (fun layer i => if layer = "X" ∧ i = "S1" then some 7 else none) 100 "T9"
      (Or.inl (by decide)),
   claim_C8_overlay_skip_or_merge.2.2 Int (fun a b => a + b) exEGL
      (fun layer i => if layer = "X" ∧ i = "S1" then some 7 else none) 100 7 "T1" "S1"
      (by decide) (by decide) (by decide)⟩

/-- Squared planar distance between two projected coordinates. -/
def dist2 (p q : Int × Int) : Int :=
  (p.1 - q.1) * (p.1 - q.1) + (p.2 - q.2) * (p.2 - q.2)

/-- The identifier of a `to`-side location closest to `coord`, with its
squared distance (first minimum in list order). -/
def closestTo (coord : Int × Int) :
    List (String × (Int × Int)) → Option (String × Int)
  | [] => none
  | (i, c) :: rest =>
    match closestTo coord rest with
    | none => some (i, dist2 coord c)
    | some (j, d) => if dist2 coord c ≤ d then some (i, dist2 coord c) else some (j, d)

/-- Modelled from the spec: the proximity collaborator's
`create_proximity_map` (outside this repository): a nearest-match
correspondence from each `identifiers_from` entry to the closest
`identifiers_to` entry, bounded by the maximum distance (distances
compared squared). -/
def create_proximity_map (identifiers_from identifiers_to : List (String × (Int × Int)))
    (max_distance : Int) : List (String × String) :=
  identifiers_from.foldr
    (fun p acc =>
      match closestTo p.2 identifiers_to with
      | none => acc
      | some (j, d) =>
        if d ≤ max_distance * max_distance then (p.1, j) :: acc else acc)
    []

/-- The embedding of `fill_mapping_with_closest_locations`
(src/lizard_datasource/augmented_datasource.py, lines 246-274). `proj` is
the coordinates collaborator `wgs84_to_rd` and `layerLocations` resolves a
layer to its datasource's locations. Specs without an identifier mapping
are skipped; for the rest, the proximity map is built with the locations of
`layer_to_add_line_to` (the target) as the `from` side and the locations of
`layer_to_get_line_from` (the source) as the `to` side, as the source's
comment insists. Returns the built map for each processed spec. -/
def fill_mapping_with_closest_locations (proj : Int → Int → Int × Int)
    (layerLocations : String → List Location) (egls : List ExtraGraphLine) :
    List (List (String × String)) :=
  (egls.filter (fun e => e.identifier_mapping.isSome)).map fun e =>
    let location_dict_to := (layerLocations e.layer_to_add_line_to).map
      (fun l => (l.identifier, proj l.latitude l.longitude))
    let location_dict_from := (layerLocations e.layer_to_get_line_from).map
      (fun l => (l.identifier, proj l.latitude l.longitude))
    create_proximity_map location_dict_to location_dict_from
      e.max_distance_for_mapping

/-- Fixture layer locations for the overlay mapping setup: target layer
"Y" holds T1 at (0, 0) and source layer "X" holds S1 at (0, 0). -/
def exLayerLocations : String → List Location :=
  fun layer =>
    if layer = "Y" then [⟨"T1", 0, 0, none⟩]
    else if layer = "X" then [⟨"S1", 0, 0, none⟩]
    else []

/-- C6: for the spec adding lines from layer "X" into layer "Y", with
target location T1 and source location S1 at the same coordinate, the
built proximity map translates target-to-source: it is exactly
[(T1, S1)], resolving T1 to S1 while S1 is not in its domain — for any
projection of coordinates and any nonnegative maximum distance. -/
theorem claim_C6_mapping_direction (proj : Int → Int → Int × Int)
    (maxd : Int) (hmax : 0 ≤ maxd) :
    fill_mapping_with_closest_locations proj exLayerLocations
        [⟨some [("T1", "S1")], "Y", "X", maxd⟩] = [[("T1", "S1")]] ∧
    List.lookup "T1" [("T1", "S1")] = some "S1" ∧
    List.lookup "S1" [("T1", "S1")] = none := by
  refine ⟨?_, by decide, by decide⟩
  show [create_proximity_map
      [("T1", proj 0 0)] [("S1", proj 0 0)] maxd] = [[("T1", "S1")]]
  have hd : dist2 (proj 0 0) (proj 0 0) = 0 := by
    unfold dist2
    ring
  show [(match closestTo (proj 0 0) [("S1", proj 0 0)] with
    | none => ([] : List (String × String))
    | some (j, d) => if d ≤ maxd * maxd then [("T1", j)] else [])] = [[("T1", "S1")]]
  have hc : closestTo (proj 0 0) [("S1", proj 0 0)] = some ("S1", 0) := by
    show (match closestTo (proj 0 0) [] with
      | none => some ("S1", dist2 (proj 0 0) (proj 0 0))
      | some (j, d) => if dist2 (proj 0 0) (proj 0 0) ≤ d
          then some ("S1", dist2 (proj 0 0) (proj 0 0)) else some (j, d)) =
      some ("S1", 0)
    rw [show closestTo (proj 0 0) [] = none from rfl, hd]
  rw [hc]
  have hle : (0 : Int) ≤ maxd * maxd := mul_nonneg hmax hmax
  simp [hle]

/-- Witness for C6 at a fully concrete input: identity projection and
maximum distance 10. -/
theorem claim_C6_witness :
    fill_mapping_with_closest_locations (fun a b => (a, b)) exLayerLocations
        [⟨some [("T1", "S1")], "Y", "X", 10⟩] = [[("T1", "S1")]] ∧
    List.lookup "T1" [("T1", "S1")] = some "S1" ∧
    List.lookup "S1" [("T1", "S1")] = none :=
  claim_C6_mapping_direction (fun a b => (a, b)) 10 (by decide)

end Lizard
